/-
Verification of the nr-stepfunction-fetcher repository (Go).

Shallow embedding of the pure logic of the program:
  * `sanitizeFileName` (main.go) — character replacement over strings;
  * the EXPRESS log-event correlation loop (`getExpressExecutions`,
    stepfunctions package) — a fold over decoded CloudWatch log events
    building a map keyed by execution ARN;
  * the STANDARD execution fetch loop (`getExecutions`);
  * the ASL definition parser (`parseDefinition`) together with the shape
    of Go `encoding/json` unmarshalling into
    `struct { States map[string]map[string]interface{} }`;
  * the output writer `processExecutions` (main.go).

Modelling conventions:
  * Go strings are Lean `String`s; where a proof needs the character view
    we go through `String.data`.  Go string primitives that the code uses
    (`strings.HasPrefix`, `strings.Replace` with count 1, single-character
    `strings.ReplaceAll`) are defined below on the character list.
  * Times: the Go code stores timestamps as RFC3339 strings
    (`time.Time.Format(time.RFC3339)`) and re-parses them to compute
    durations.  `time.RFC3339` has second precision, so a log event's
    millisecond timestamp `ms` is stored as the instant `ms.fdiv 1000`
    (floor division: Go `time.UnixMilli` followed by `Format` floors
    towards minus infinity).  We represent a time string by the
    epoch-second value it denotes: `Option Int`, `none` standing for the
    empty string.  A `Duration` is likewise `Option Int` in whole
    seconds, `none` standing for the literal `"N/A"`.
  * Go maps are association lists processed in insertion order with at
    most one entry per key, which the insertion functions below maintain.
    Iteration order of a Go map is unspecified, so claims about collected
    outputs are stated up to membership/counting.
  * JSON values decoded by `encoding/json` into `interface{}` are the
    inductive `Json` below; a definition string that is not well-formed
    JSON is the `none` case of `Option Json`.  JSON numbers are modelled
    as `Int` (their float64 representation plays no role in any claim).
    Decoding into `interface{}`/`map` collapses duplicate object keys
    (later occurrences win), modelled by `goVal`/`goMapOfList`.  Go
    matches JSON keys to struct fields case-insensitively; for the ASCII
    field name `"States"` this is `asciiLower`-equality.
-/
import Mathlib

namespace StepFn

/-! ## Filename sanitization (main.go, `sanitizeFileName`) -/

/-- The nine characters replaced by `sanitizeFileName`
(`invalidChars` in main.go). -/
def invalidChars : List Char := ['/', '\\', ':', '*', '?', '"', '<', '>', '|']

/-- Go `strings.ReplaceAll(s, string c, string r)` for one-character
pattern and replacement: every occurrence of `c` becomes `r`. -/
def goReplaceAllChar (s : String) (c r : Char) : String :=
  String.mk (s.data.map fun x => if x = c then r else x)

/-- `sanitizeFileName` from main.go: sequentially `ReplaceAll` each
invalid character with an underscore. -/
def sanitizeFileName (name : String) : String :=
  invalidChars.foldl (fun acc c => goReplaceAllChar acc c '_') name

/-- One pass of the whole pipeline, as a single character map.  Derived
form used by the proofs; `sanitizeFileName_data` shows it agrees with
the source definition. -/
def cleanChar (x : Char) : Char :=
  if x ∈ invalidChars then '_' else x

/-! ## Execution records (stepfunctions/types.go) -/

/-- The `Execution` struct.  `startTime`/`endTime` hold the epoch-second
value denoted by the stored RFC3339 string (`none` for the empty
string); `duration` holds the whole-second span denoted by the stored Go
duration string (`none` for `"N/A"`). -/
structure Execution where
  executionArn : String
  status : String
  startTime : Option Int
  endTime : Option Int
  duration : Option Int
deriving Repr, DecidableEq

/-! ## Go association-map helpers

Go maps are association lists with at most one entry per key.
`goLookup` is `m[k]` (with the comma-ok idiom), `goUpdate` writes
through an existing entry in place, `goMapInsert` is `m[k] = v`. -/

def goLookup {α : Type} : List (String × α) → String → Option α
  | [], _ => none
  | (k, v) :: rest, a => if k = a then some v else goLookup rest a

def goUpdate {α : Type} : List (String × α) → String → α → List (String × α)
  | [], _, _ => []
  | (k, v) :: rest, a, e => if k = a then (k, e) :: rest else (k, v) :: goUpdate rest a e

def goMapInsert {α : Type} (m : List (String × α)) (k : String) (v : α) :
    List (String × α) :=
  if (goLookup m k).isSome then goUpdate m k v else m ++ [(k, v)]

/-- Build a Go map from key/value pairs in document order: later
duplicate keys overwrite earlier ones. -/
def goMapOfList {α : Type} (l : List (String × α)) : List (String × α) :=
  l.foldl (fun m p => goMapInsert m p.1 p.2) []

/-! ## Go string primitives used by the stepfunctions package -/

/-- Remove the first occurrence of `pat` (if any) from a character list:
the list-level body of Go `strings.Replace(s, pat, "", 1)`. -/
def goReplaceOnceList (pat : List Char) : List Char → List Char
  | [] => []
  | x :: xs =>
    if pat.isPrefixOf (x :: xs) then (x :: xs).drop pat.length
    else x :: goReplaceOnceList pat xs

/-- Go `strings.Replace(s, pat, "", 1)`: remove the first occurrence of
`pat` from `s` (if any). -/
def goReplaceOnce (s pat : String) : String :=
  String.mk (goReplaceOnceList pat.data s.data)

/-- Go `strings.HasPrefix(s, pre)`. -/
def goHasPrefix (pre s : String) : Bool :=
  pre.data.isPrefixOf s.data

/-- Does `sep` occur as a contiguous sublist of `l`?  Used for the
`strings.Split(arn, ":log-group:")` index check: `Split` yields at least
two parts exactly when the separator occurs. -/
def containsSub (sep : List Char) : List Char → Bool
  | [] => sep.isPrefixOf []
  | x :: xs => sep.isPrefixOf (x :: xs) || containsSub sep xs

/-! ## EXPRESS correlation (stepfunctions package, `getExpressExecutions`) -/

/-- One decoded CloudWatch Logs message, the `logEvent` struct of
`getExpressExecutions` (millisecond timestamp; the `status` field is
declared in the Go struct but never read). -/
structure LogEvent where
  eventType : String
  executionArn : String
  timestamp : Int
  status : String
deriving Repr, DecidableEq

/-- The epoch-second value of Go's zero `time.Time`
(January 1, year 1, 00:00:00 UTC), the value `time.Parse` leaves behind
on failure (the code discards parse errors). -/
def goZeroTimeSec : Int := -62135596800

/-- `time.Parse(time.RFC3339, s)` with the error ignored, for a stored
time field: an empty stored string fails to parse and yields the zero
time.  (Unreachable in the correlation loop: every record in the map is
created with a non-empty start time.) -/
def parseRFC3339 (t : Option Int) : Int :=
  match t with
  | some s => s
  | none => goZeroTimeSec

/-- One iteration of the correlation loop of `getExpressExecutions`
(part_000 lines 209–232): an `"ExecutionStarted"` event for an ARN not
in the map inserts a fresh RUNNING record; any `"Execution"`-prefixed,
non-started event for an ARN already in the map rewrites that record's
status (event type with the first `"Execution"` removed), end time, and
duration (end minus the re-parsed stored start); every other event
leaves the map unchanged.  `ev.timestamp.fdiv 1000` is the epoch second
denoted by `time.UnixMilli(ts).Format(time.RFC3339)`. -/
def stepExpressEvent (m : List (String × Execution)) (ev : LogEvent) :
    List (String × Execution) :=
  let ts : Int := ev.timestamp.fdiv 1000
  match goLookup m ev.executionArn with
  | none =>
    if ev.eventType = "ExecutionStarted" then
      m ++ [(ev.executionArn,
        { executionArn := ev.executionArn
          status := "RUNNING"
          startTime := some ts
          endTime := none
          duration := none })]
    else m
  | some ex =>
    if goHasPrefix "Execution" ev.eventType ∧ ev.eventType ≠ "ExecutionStarted" then
      goUpdate m ev.executionArn
        { ex with
          status := goReplaceOnce ev.eventType "Execution"
          endTime := some ts
          duration := some (ts - parseRFC3339 ex.startTime) }
    else m

/-- The whole correlation pass: fold the decoded events into the map and
collect the map's values (Go iterates the map in unspecified order; the
model keeps insertion order, and the claims are stated up to
membership/counting). -/
def correlateEvents (events : List LogEvent) : List Execution :=
  (events.foldl stepExpressEvent []).map Prod.snd

/-- The first `"ExecutionStarted"` event for ARN `X` in a list of
decoded events. -/
def firstStarted (X : String) : List LogEvent → Option LogEvent
  | [] => none
  | e :: rest =>
    if e.executionArn = X ∧ e.eventType = "ExecutionStarted" then some e
    else firstStarted X rest

/-- Every record in the correlation map is keyed by its own ARN. -/
def ArnConsistent (m : List (String × Execution)) : Prop :=
  ∀ p ∈ m, p.2.executionArn = p.1

/-- A record whose start time is populated and whose duration, once the
end time is populated, is end minus start. -/
def ClosedOk (ex : Execution) : Prop :=
  ∃ s, ex.startTime = some s ∧ ∀ ed, ex.endTime = some ed → ex.duration = some (ed - s)

/-! ## STANDARD execution fetch (stepfunctions package, `getExecutions`) -/

/-- The fields of a `DescribeExecution` result that `getExecutions`
reads.  `startDate`/`stopDate` are epoch seconds: the code immediately
formats both with `time.RFC3339` (second precision) and re-parses, so
the model works at that precision.  `stopDate = none` is a nil
`StopDate`. -/
structure DescribeResult where
  executionArn : String
  status : String
  startDate : Int
  stopDate : Option Int
deriving Repr, DecidableEq

/-- Body of the per-execution iteration of `getExecutions` (part_000
lines 145–161): with a stop date the record carries that end time and
the stop-minus-start duration; without one the end time stays empty and
the duration stays `"N/A"`.  The status is copied verbatim. -/
def describeToExecution (d : DescribeResult) : Execution :=
  match d.stopDate with
  | none =>
    { executionArn := d.executionArn
      status := d.status
      startTime := some d.startDate
      endTime := none
      duration := none }
  | some stop =>
    { executionArn := d.executionArn
      status := d.status
      startTime := some d.startDate
      endTime := some stop
      duration := some (stop - d.startDate) }

/-- `getExecutions`: the flattened pages of listed executions, each
described; a failed describe call (`none`) is warned about and
skipped. -/
def getExecutions (descs : List (Option DescribeResult)) : List Execution :=
  descs.foldl
    (fun acc od =>
      match od with
      | none => acc
      | some d => acc ++ [describeToExecution d])
    []

/-! ## EXPRESS logging configuration and the sentinel record
(part_000 lines 80–92 and 168–199) -/

structure CloudWatchLogsLogGroup where
  logGroupArn : Option String
deriving Repr, DecidableEq

structure LogDestination where
  cloudWatchLogsLogGroup : Option CloudWatchLogsLogGroup
deriving Repr, DecidableEq

structure LoggingConfiguration where
  destinations : List LogDestination
deriving Repr, DecidableEq

/-- Outcome of `getExpressExecutions`: a produced execution list, an
error returned to the caller, or a runtime panic (nil-pointer
dereference or out-of-range index while extracting the log group
name). -/
inductive ExpressResult
  | ok (execs : List Execution)
  | fetchError (msg : String)
  | panic
deriving Repr, DecidableEq

/-- `getExpressExecutions`, with the two external effects abstracted as
inputs: the described state machine's logging configuration, and the
result of the `FilterLogEvents` query (`Except.error` for a failed
query; a `none` element for a message whose JSON fails to decode, which
the loop warns about and skips). -/
def getExpressExecutions (cfg : Option LoggingConfiguration)
    (queryResult : Except String (List (Option LogEvent))) : ExpressResult :=
  match cfg with
  | none => .fetchError "logging not enabled"
  | some c =>
    match c.destinations with
    | [] => .fetchError "logging not enabled"
    | d :: _ =>
      match d.cloudWatchLogsLogGroup with
      | none => .panic
      | some g =>
        match g.logGroupArn with
        | none => .fetchError "no CloudWatch Log Group configured"
        | some arn =>
          if containsSub ":log-group:".data arn.data then
            match queryResult with
            | .error e => .fetchError e
            | .ok msgs => .ok (correlateEvents (msgs.filterMap id))
          else .panic

/-- The sentinel record substituted by `getStateMachineDetails`
(part_000 lines 85–91) when the EXPRESS fetch fails. -/
def notSupportedSentinel : Execution :=
  { executionArn := "N/A"
    status := "Not supported (check CloudWatch Logs configuration)"
    startTime := none
    endTime := none
    duration := none }

/-- The EXPRESS branch of `getStateMachineDetails`: a fetch error is
logged and replaced by the single sentinel record; a panic crashes the
process (`none`). -/
def expressExecutionsOrSentinel (cfg : Option LoggingConfiguration)
    (queryResult : Except String (List (Option LogEvent))) :
    Option (List Execution) :=
  match getExpressExecutions cfg queryResult with
  | .ok execs => some execs
  | .fetchError _ => some [notSupportedSentinel]
  | .panic => none

/-! ## JSON values and Go `encoding/json` decoding -/

/-- A well-formed JSON document, as decoded by `encoding/json` into
`interface{}` (numbers as `Int`, see the header). -/
inductive Json where
  | null
  | bool (b : Bool)
  | num (n : Int)
  | str (s : String)
  | arr (elems : List Json)
  | obj (members : List (String × Json))

/-- ASCII lower-casing, the fragment of Go's fold-matching relevant to
the ASCII struct field name `"States"`. -/
def asciiLower (c : Char) : Char :=
  if 'A' ≤ c ∧ c ≤ 'Z' then Char.ofNat (c.toNat + 32) else c

/-- Does a JSON object key match the struct field `States`?  Go matches
an exact key, else falls back to a case-insensitive match; every
occurrence that matches is decoded into the field, in document order. -/
def matchesStatesField (k : String) : Bool :=
  k.data.map asciiLower == "states".data

mutual
/-- Decoding a JSON value into `interface{}`: objects become Go maps,
so duplicate keys collapse (later wins) at every level. -/
def goVal : Json → Json
  | .null => .null
  | .bool b => .bool b
  | .num n => .num n
  | .str s => .str s
  | .arr xs => .arr (goValList xs)
  | .obj ms => .obj (goMapOfList (goValMembers ms))

def goValList : List Json → List Json
  | [] => []
  | x :: xs => goVal x :: goValList xs

def goValMembers : List (String × Json) → List (String × Json)
  | [] => []
  | (k, v) :: ms => (k, goVal v) :: goValMembers ms
end

/-- Are the keys of an association list pairwise distinct? -/
def distinctKeys {α : Type} : List (String × α) → Bool
  | [] => true
  | (k, _) :: rest => !(rest.any (·.1 = k)) && distinctKeys rest

mutual
def deepNodup : Json → Bool
  | .null => true
  | .bool _ => true
  | .num _ => true
  | .str _ => true
  | .arr xs => deepNodupList xs
  | .obj ms => distinctKeys ms && deepNodupMembers ms

def deepNodupList : List Json → Bool
  | [] => true
  | x :: xs => deepNodup x && deepNodupList xs

def deepNodupMembers : List (String × Json) → Bool
  | [] => true
  | (_, v) :: ms => deepNodup v && deepNodupMembers ms
end

/-! ## ASL definition parsing (part_000 lines 247–274) -/

/-- The two ways `json.Unmarshal` fails in `parseDefinition`: the input
string is not well-formed JSON, or a well-formed value does not fit
`struct { States map[string]map[string]interface{} }`. -/
inductive UnmarshalError
  | malformedJSON
  | typeMismatch
deriving Repr, DecidableEq

/-- One `State` entry (stepfunctions/types.go).  `parameters` and
`rawDefinition` are the decoded Go maps (a nil map and an empty map are
both `[]`). -/
structure State where
  name : String
  type : String
  next : String
  «end» : Bool
  parameters : List (String × Json)
  rawDefinition : List (String × Json)

/-- Decode one state's value into `map[string]interface{}`: JSON null
gives a nil map, a JSON object gives the decoded (duplicate-collapsed)
member map, anything else is an `UnmarshalTypeError`. -/
def decodeStateObj : Json → Except UnmarshalError (List (String × Json))
  | .null => .ok []
  | .obj ms => .ok (goMapOfList (goValMembers ms))
  | _ => .error .typeMismatch

/-- Decode the members of a `"States"` JSON object into the accumulated
`map[string]map[string]interface{}` in document order. -/
def decodeStatesInto (m : List (String × List (String × Json))) :
    List (String × Json) →
    Except UnmarshalError (List (String × List (String × Json)))
  | [] => .ok m
  | (k, v) :: rest =>
    match decodeStateObj v with
    | .error e => .error e
    | .ok d => decodeStatesInto (goMapInsert m k d) rest

/-- Decode one JSON value appearing under a `States`-matching key into
the map field: null zeroes the field (nil map), an object merges its
decoded members into the current map, anything else is a type error. -/
def decodeStatesValue (m : List (String × List (String × Json))) :
    Json → Except UnmarshalError (List (String × List (String × Json)))
  | .null => .ok []
  | .obj ms => decodeStatesInto m ms
  | _ => .error .typeMismatch

/-- Walk the top-level object's members in document order, decoding
every `States`-matching member into the field and skipping the rest. -/
def decodeStatesField (m : List (String × List (String × Json))) :
    List (String × Json) →
    Except UnmarshalError (List (String × List (String × Json)))
  | [] => .ok m
  | (k, v) :: rest =>
    if matchesStatesField k then
      match decodeStatesValue m v with
      | .error e => .error e
      | .ok m' => decodeStatesField m' rest
    else decodeStatesField m rest

/-- `json.Unmarshal` of the whole definition into
`struct { States ... }`: null leaves the zero struct, an object is
decoded member-wise, anything else is a type error. -/
def decodeASLStates :
    Json → Except UnmarshalError (List (String × List (String × Json)))
  | .null => .ok []
  | .obj members => decodeStatesField [] members
  | _ => .error .typeMismatch

/-- The per-state projection of `parseDefinition`: `Type`, `Next`,
`End` and `Parameters` are read with the comma-ok type assertion, so a
missing key or a wrongly-typed value yields the zero value. -/
def mkState (p : String × List (String × Json)) : State :=
  { name := p.1
    type := match goLookup p.2 "Type" with | some (.str s) => s | _ => ""
    next := match goLookup p.2 "Next" with | some (.str s) => s | _ => ""
    «end» := match goLookup p.2 "End" with | some (.bool b) => b | _ => false
    parameters := match goLookup p.2 "Parameters" with | some (.obj ms) => ms | _ => []
    rawDefinition := p.2 }

/-- `parseDefinition`: fail on malformed JSON (`none`) or on a type
mismatch while unmarshalling; otherwise one `State` per entry of the
decoded `States` map. -/
def parseDefinition (input : Option Json) : Except UnmarshalError (List State) :=
  match input with
  | none => .error .malformedJSON
  | some j =>
    match decodeASLStates j with
    | .error e => .error e
    | .ok sm => .ok (sm.map mkState)

/-- Spec-side shape predicate for the corrected C7: may one state's
value be decoded into `map[string]interface{}` without a type error? -/
def stateValueOk : Json → Bool
  | .null => true
  | .obj _ => true
  | _ => false

/-- Spec-side: may a `States` value be decoded without a type error? -/
def statesValueOk : Json → Bool
  | .null => true
  | .obj ms => ms.all fun p => stateValueOk p.2
  | _ => false

/-- Spec-side: does the whole definition decode without any error?
(Used in the corrected C7: `parseDefinition` succeeds exactly on these
inputs.) -/
def definitionWellShaped : Option Json → Bool
  | none => false
  | some .null => true
  | some (.obj members) =>
    members.all fun p => !matchesStatesField p.1 || statesValueOk p.2
  | some _ => false

/-! ## State machines and the output writer (types.go, main.go) -/

/-- The `StateMachine` struct (types.go).  `definition` keeps the raw
ASL string abstractly as decoded JSON. -/
structure StateMachine where
  name : String
  arn : String
  roleArn : String
  definition : Option Json
  states : List State
  executions : List Execution
  creationDate : String
  type : String

/-- The file name built by `saveExecutionDefinition` (main.go lines
149–153), without the output directory prefix: colons in the ARN become
underscores, then the name is sanitized. -/
def executionFileName (smName arn : String) : String :=
  smName ++ "_execution_" ++ sanitizeFileName (goReplaceAllChar arn ':' '_') ++ ".json"

/-- `processExecutions` (main.go lines 115–141): every execution is
appended to the console table; an execution whose ARN is not the
sentinel `"N/A"` is additionally serialized and written to its file.
Returns (table rows, written files as name/content pairs). -/
def processExecutions (sm : StateMachine) :
    List Execution × List (String × Execution) :=
  sm.executions.foldl
    (fun acc e =>
      let table := acc.1 ++ [e]
      if e.executionArn ≠ "N/A" then
        (table, acc.2 ++ [(executionFileName sm.name e.executionArn, e)])
      else (table, acc.2))
    ([], [])

/-! ## Lemmas: sanitization -/

theorem goReplaceAllChar_data (s : String) (c r : Char) :
    (goReplaceAllChar s c r).data = s.data.map fun x => if x = c then r else x := rfl

theorem sanitizeFileName_data (s : String) :
    (sanitizeFileName s).data = s.data.map cleanChar := by
  simp only [sanitizeFileName, invalidChars, List.foldl_cons, List.foldl_nil,
    goReplaceAllChar_data, List.map_map]
  apply List.map_congr_left
  intro x _
  by_cases h : x ∈ invalidChars
  · simp only [invalidChars, List.mem_cons, List.not_mem_nil, or_false] at h
    rcases h with rfl | rfl | rfl | rfl | rfl | rfl | rfl | rfl | rfl
    all_goals decide
  · simp only [invalidChars, List.mem_cons, List.not_mem_nil, or_false] at h
    push_neg at h
    obtain ⟨h1, h2, h3, h4, h5, h6, h7, h8, h9⟩ := h
    simp [Function.comp, cleanChar, invalidChars, h1, h2, h3, h4, h5, h6, h7, h8, h9]

theorem sanitizeFileName_eq (s : String) :
    sanitizeFileName s = String.mk (s.data.map cleanChar) := by
  have h := sanitizeFileName_data s
  cases hs : sanitizeFileName s with
  | mk d => rw [hs] at h; simp only at h; rw [h]

theorem cleanChar_cleanChar (x : Char) : cleanChar (cleanChar x) = cleanChar x := by
  by_cases h : x ∈ invalidChars
  · have hx : cleanChar x = '_' := by simp [cleanChar, h]
    rw [hx]; decide
  · have hx : cleanChar x = x := by simp [cleanChar, h]
    rw [hx]; exact hx

theorem cleanChar_not_invalid (x : Char) : cleanChar x ∉ invalidChars := by
  by_cases h : x ∈ invalidChars
  · have hx : cleanChar x = '_' := by simp [cleanChar, h]
    rw [hx]; decide
  · have hx : cleanChar x = x := by simp [cleanChar, h]
    rw [hx]; exact h

/-! ## Lemmas: Go association maps -/

theorem goLookup_append {α : Type} (m n : List (String × α)) (X : String) :
    goLookup (m ++ n) X =
      match goLookup m X with
      | some v => some v
      | none => goLookup n X := by
  induction m with
  | nil => simp [goLookup]
  | cons p rest ih =>
    obtain ⟨k, v⟩ := p
    by_cases h : k = X
    · simp [goLookup, h]
    · simp [goLookup, h, ih]

theorem goLookup_eq_none_iff {α : Type} (m : List (String × α)) (a : String) :
    goLookup m a = none ↔ a ∉ m.map Prod.fst := by
  induction m with
  | nil => simp [goLookup]
  | cons p rest ih =>
    obtain ⟨k, v⟩ := p
    by_cases h : k = a
    · subst h
      simp [goLookup]
    · simp [goLookup, h, ih, Ne.symm h]

theorem mem_of_goLookup {α : Type} {m : List (String × α)} {a : String} {v : α}
    (h : goLookup m a = some v) : (a, v) ∈ m := by
  induction m with
  | nil => simp [goLookup] at h
  | cons p rest ih =>
    obtain ⟨k, w⟩ := p
    by_cases hk : k = a
    · subst hk
      simp [goLookup] at h
      subst h
      exact List.mem_cons_self _ _
    · simp [goLookup, hk] at h
      exact List.mem_cons_of_mem _ (ih h)

theorem goLookup_of_mem {α : Type} {m : List (String × α)} {a : String} {v : α}
    (hn : (m.map Prod.fst).Nodup) (h : (a, v) ∈ m) : goLookup m a = some v := by
  induction m with
  | nil => simp at h
  | cons p rest ih =>
    obtain ⟨k, w⟩ := p
    simp only [List.map_cons, List.nodup_cons] at hn
    rcases List.mem_cons.mp h with heq | hmem
    · cases heq
      simp [goLookup]
    · by_cases hk : k = a
      · subst hk
        exact absurd (List.mem_map.mpr ⟨(k, v), hmem, rfl⟩) hn.1
      · simp only [goLookup, hk, if_false]
        exact ih hn.2 hmem

theorem goUpdate_map_fst {α : Type} (m : List (String × α)) (a : String) (e : α) :
    (goUpdate m a e).map Prod.fst = m.map Prod.fst := by
  induction m with
  | nil => rfl
  | cons p rest ih =>
    obtain ⟨k, v⟩ := p
    by_cases h : k = a <;> simp [goUpdate, h, ih]

theorem goLookup_goUpdate_self {α : Type} {m : List (String × α)} {a : String}
    {ex : α} (e : α) (h : goLookup m a = some ex) :
    goLookup (goUpdate m a e) a = some e := by
  induction m with
  | nil => simp [goLookup] at h
  | cons p rest ih =>
    obtain ⟨k, v⟩ := p
    by_cases hk : k = a
    · simp [goUpdate, goLookup, hk]
    · simp only [goLookup, hk, if_false] at h
      simp [goUpdate, goLookup, hk, ih h]

theorem goLookup_goUpdate_other {α : Type} (m : List (String × α)) {X a : String}
    (e : α) (h : X ≠ a) : goLookup (goUpdate m a e) X = goLookup m X := by
  induction m with
  | nil => rfl
  | cons p rest ih =>
    obtain ⟨k, v⟩ := p
    by_cases hk : k = a
    · subst hk
      simp [goUpdate, goLookup, Ne.symm h]
    · by_cases hX : k = X <;> simp [goUpdate, goLookup, hk, hX, h, ih]

theorem mem_goUpdate {α : Type} {m : List (String × α)} {a : String} {e : α}
    {p : String × α} (h : p ∈ goUpdate m a e) : p ∈ m ∨ p = (a, e) := by
  induction m with
  | nil => simp [goUpdate] at h
  | cons q rest ih =>
    obtain ⟨k, v⟩ := q
    by_cases hk : k = a
    · subst hk
      simp only [goUpdate, if_pos rfl] at h
      rcases List.mem_cons.mp h with heq | hmem
      · exact Or.inr heq
      · exact Or.inl (List.mem_cons_of_mem _ hmem)
    · simp only [goUpdate, hk, if_false] at h
      rcases List.mem_cons.mp h with heq | hmem
      · exact Or.inl (heq ▸ List.mem_cons_self _ _)
      · rcases ih hmem with h' | h'
        · exact Or.inl (List.mem_cons_of_mem _ h')
        · exact Or.inr h'

/-! ## Lemmas: the EXPRESS correlation fold -/

theorem foldl_preserves {β γ : Type} (f : γ → β → γ) (P : γ → Prop)
    (hstep : ∀ m e, P m → P (f m e)) :
    ∀ (l : List β) (m : γ), P m → P (l.foldl f m) := by
  intro l
  induction l with
  | nil => intro m hm; exact hm
  | cons e rest ih => intro m hm; exact ih _ (hstep m e hm)

theorem goLookup_stepExpressEvent_other (m : List (String × Execution))
    (ev : LogEvent) {X : String} (h : X ≠ ev.executionArn) :
    goLookup (stepExpressEvent m ev) X = goLookup m X := by
  cases hl : goLookup m ev.executionArn with
  | none =>
    by_cases ht : ev.eventType = "ExecutionStarted"
    · simp only [stepExpressEvent, hl, if_pos ht]
      rw [goLookup_append]
      cases hx : goLookup m X with
      | some v => rfl
      | none => simp [goLookup, Ne.symm h]
    · simp only [stepExpressEvent, hl, if_neg ht]
  | some ex =>
    by_cases hg : goHasPrefix "Execution" ev.eventType = true ∧ ev.eventType ≠ "ExecutionStarted"
    · simp only [stepExpressEvent, hl, if_pos hg]
      exact goLookup_goUpdate_other m _ h
    · simp only [stepExpressEvent, hl, if_neg hg]

theorem goLookup_stepExpressEvent_self (m : List (String × Execution)) (ev : LogEvent) :
    goLookup (stepExpressEvent m ev) ev.executionArn =
      match goLookup m ev.executionArn with
      | none =>
        if ev.eventType = "ExecutionStarted" then
          some { executionArn := ev.executionArn
                 status := "RUNNING"
                 startTime := some (ev.timestamp.fdiv 1000)
                 endTime := none
                 duration := none }
        else none
      | some ex =>
        if goHasPrefix "Execution" ev.eventType ∧ ev.eventType ≠ "ExecutionStarted" then
          some { ex with
                 status := goReplaceOnce ev.eventType "Execution"
                 endTime := some (ev.timestamp.fdiv 1000)
                 duration := some (ev.timestamp.fdiv 1000 - parseRFC3339 ex.startTime) }
        else some ex := by
  cases hl : goLookup m ev.executionArn with
  | none =>
    by_cases ht : ev.eventType = "ExecutionStarted"
    · simp only [stepExpressEvent, hl, if_pos ht]
      rw [goLookup_append, hl]
      simp [goLookup]
    · simp only [stepExpressEvent, hl, if_neg ht]
  | some ex =>
    by_cases hg : goHasPrefix "Execution" ev.eventType = true ∧ ev.eventType ≠ "ExecutionStarted"
    · simp only [stepExpressEvent, hl, if_pos hg]
      exact goLookup_goUpdate_self _ hl
    · simp only [stepExpressEvent, hl, if_neg hg]

theorem stepExpressEvent_arnConsistent {m : List (String × Execution)}
    (ev : LogEvent) (h : ArnConsistent m) : ArnConsistent (stepExpressEvent m ev) := by
  cases hl : goLookup m ev.executionArn with
  | none =>
    by_cases ht : ev.eventType = "ExecutionStarted"
    · simp only [stepExpressEvent, hl, if_pos ht]
      intro p hp
      rcases List.mem_append.mp hp with hm | hnew
      · exact h p hm
      · simp only [List.mem_singleton] at hnew
        subst hnew
        rfl
    · simp only [stepExpressEvent, hl, if_neg ht]; exact h
  | some ex =>
    by_cases hg : goHasPrefix "Execution" ev.eventType = true ∧ ev.eventType ≠ "ExecutionStarted"
    · simp only [stepExpressEvent, hl, if_pos hg]
      intro p hp
      rcases mem_goUpdate hp with hm | hnew
      · exact h p hm
      · subst hnew
        have harn := h _ (mem_of_goLookup hl)
        simpa using harn
    · simp only [stepExpressEvent, hl, if_neg hg]; exact h

theorem stepExpressEvent_closedOk {m : List (String × Execution)}
    (ev : LogEvent) (h : ∀ p ∈ m, ClosedOk p.2) :
    ∀ p ∈ stepExpressEvent m ev, ClosedOk p.2 := by
  cases hl : goLookup m ev.executionArn with
  | none =>
    by_cases ht : ev.eventType = "ExecutionStarted"
    · simp only [stepExpressEvent, hl, if_pos ht]
      intro p hp
      rcases List.mem_append.mp hp with hm | hnew
      · exact h p hm
      · simp only [List.mem_singleton] at hnew
        subst hnew
        exact ⟨ev.timestamp.fdiv 1000, rfl, fun ed hed => by cases hed⟩
    · simp only [stepExpressEvent, hl, if_neg ht]; exact h
  | some ex =>
    by_cases hg : goHasPrefix "Execution" ev.eventType = true ∧ ev.eventType ≠ "ExecutionStarted"
    · simp only [stepExpressEvent, hl, if_pos hg]
      intro p hp
      rcases mem_goUpdate hp with hm | hnew
      · exact h p hm
      · subst hnew
        obtain ⟨s, hs, _⟩ := h _ (mem_of_goLookup hl)
        refine ⟨s, hs, fun ed hed => ?_⟩
        simp only at hed ⊢
        cases hed
        rw [hs]
        rfl
    · simp only [stepExpressEvent, hl, if_neg hg]; exact h

theorem stepExpressEvent_nodupKeys {m : List (String × Execution)}
    (ev : LogEvent) (h : (m.map Prod.fst).Nodup) :
    ((stepExpressEvent m ev).map Prod.fst).Nodup := by
  cases hl : goLookup m ev.executionArn with
  | none =>
    by_cases ht : ev.eventType = "ExecutionStarted"
    · simp only [stepExpressEvent, hl, if_pos ht]
      have hnot : ev.executionArn ∉ m.map Prod.fst := (goLookup_eq_none_iff m _).mp hl
      simp only [List.map_append, List.map_cons, List.map_nil]
      rw [List.nodup_append]
      exact ⟨h, List.nodup_singleton _, by simpa using fun hx => hnot hx⟩
    · simp only [stepExpressEvent, hl, if_neg ht]; exact h
  | some ex =>
    by_cases hg : goHasPrefix "Execution" ev.eventType = true ∧ ev.eventType ≠ "ExecutionStarted"
    · simp only [stepExpressEvent, hl, if_pos hg]
      rw [goUpdate_map_fst]
      exact h
    · simp only [stepExpressEvent, hl, if_neg hg]; exact h

theorem goLookup_foldl_startTime :
    ∀ (events : List LogEvent) (m : List (String × Execution)) (X : String),
      (goLookup (events.foldl stepExpressEvent m) X).map Execution.startTime =
        match goLookup m X with
        | some ex => some ex.startTime
        | none => (firstStarted X events).map fun e => some (e.timestamp.fdiv 1000) := by
  intro events
  induction events with
  | nil =>
    intro m X
    cases hl : goLookup m X <;> simp [firstStarted, hl]
  | cons e rest ih =>
    intro m X
    rw [List.foldl_cons, ih (stepExpressEvent m e) X]
    by_cases hX : X = e.executionArn
    · rw [hX, goLookup_stepExpressEvent_self]
      cases hl : goLookup m e.executionArn with
      | some ex =>
        by_cases hg : goHasPrefix "Execution" e.eventType = true ∧ e.eventType ≠ "ExecutionStarted"
        · simp only [if_pos hg]
        · simp only [if_neg hg]
      | none =>
        by_cases ht : e.eventType = "ExecutionStarted"
        · simp [firstStarted, ht]
        · simp [firstStarted, ht]
    · rw [goLookup_stepExpressEvent_other m e hX]
      have hX' : e.executionArn ≠ X := fun hc => hX hc.symm
      simp [firstStarted, hX']

theorem countP_values_le_one :
    ∀ (m : List (String × Execution)) (X : String),
      (m.map Prod.fst).Nodup → ArnConsistent m →
      ((m.map Prod.snd).countP fun r => decide (r.executionArn = X)) ≤ 1 := by
  intro m
  induction m with
  | nil => intro X _ _; simp
  | cons p rest ih =>
    intro X hn hc
    obtain ⟨k, v⟩ := p
    simp only [List.map_cons, List.nodup_cons] at hn
    have hrest : ArnConsistent rest := fun q hq => hc q (List.mem_cons_of_mem _ hq)
    by_cases hv : v.executionArn = X
    · have hkX : k = X := by
        have := hc (k, v) (List.mem_cons_self _ _)
        simp only at this
        rw [← this, hv]
      have hzero : (rest.map Prod.snd).countP (fun r => decide (r.executionArn = X)) = 0 := by
        rw [List.countP_eq_zero]
        intro r hr
        obtain ⟨q, hq, hqr⟩ := List.mem_map.mp hr
        have harn : q.2.executionArn = q.1 := hc q (List.mem_cons_of_mem _ hq)
        simp only [decide_eq_true_eq]
        intro hrX
        apply hn.1
        refine List.mem_map.mpr ⟨q, hq, ?_⟩
        rw [← harn, hqr, hrX, ← hkX]
      simp [List.countP_cons, hzero, hv]
    · have : (List.map Prod.snd ((k, v) :: rest)).countP (fun r => decide (r.executionArn = X)) =
          (rest.map Prod.snd).countP (fun r => decide (r.executionArn = X)) := by
        simp [List.countP_cons, hv]
      rw [this]
      exact ih X hn.2 hrest

theorem firstStarted_spec {X : String} :
    ∀ {l : List LogEvent} {e : LogEvent}, firstStarted X l = some e →
      e.executionArn = X ∧ e.eventType = "ExecutionStarted" := by
  intro l
  induction l with
  | nil => intro e h; cases h
  | cons a rest ih =>
    intro e h
    by_cases hc : a.executionArn = X ∧ a.eventType = "ExecutionStarted"
    · rw [firstStarted, if_pos hc] at h
      cases h
      exact hc
    · rw [firstStarted, if_neg hc] at h
      exact ih h

theorem correlate_invariants (events : List LogEvent) :
    (((events.foldl stepExpressEvent []).map Prod.fst).Nodup ∧
      ArnConsistent (events.foldl stepExpressEvent [])) ∧
    ∀ p ∈ events.foldl stepExpressEvent [], ClosedOk p.2 := by
  refine foldl_preserves stepExpressEvent
    (fun m => (((m.map Prod.fst).Nodup ∧ ArnConsistent m) ∧ ∀ p ∈ m, ClosedOk p.2))
    (fun m e hm =>
      ⟨⟨stepExpressEvent_nodupKeys e hm.1.1, stepExpressEvent_arnConsistent e hm.1.2⟩,
        stepExpressEvent_closedOk e hm.2⟩)
    events [] ⟨⟨List.nodup_nil, fun p hp => absurd hp (List.not_mem_nil p)⟩,
      fun p hp => absurd hp (List.not_mem_nil p)⟩

theorem mem_correlateEvents {events : List LogEvent} {r : Execution} :
    r ∈ correlateEvents events ↔ ∃ k, (k, r) ∈ events.foldl stepExpressEvent [] := by
  constructor
  · intro h
    obtain ⟨p, hp, hpr⟩ := List.mem_map.mp h
    exact ⟨p.1, by rwa [show (p.1, r) = p from by rw [← hpr]]⟩
  · rintro ⟨k, hk⟩
    exact List.mem_map.mpr ⟨(k, r), hk, rfl⟩

theorem goLookup_correlate_of_mem {events : List LogEvent} {r : Execution}
    (h : r ∈ correlateEvents events) :
    goLookup (events.foldl stepExpressEvent []) r.executionArn = some r := by
  obtain ⟨k, hk⟩ := mem_correlateEvents.mp h
  obtain ⟨⟨hnodup, hcons⟩, _⟩ := correlate_invariants events
  have hkr : r.executionArn = k := hcons (k, r) hk
  rw [hkr]
  exact goLookup_of_mem hnodup hk

/-- C10: the EXPRESS correlation produces at most one record per
execution ARN, and each produced record's start time is the (RFC3339
second-truncated) timestamp of the first `"ExecutionStarted"` event
observed for that ARN; duplicate start events neither reset the start
time nor create a second record. -/
theorem c10_express_one_record_first_start (events : List LogEvent) (X : String) :
    ((correlateEvents events).countP fun r => decide (r.executionArn = X)) ≤ 1 ∧
    ∀ r ∈ correlateEvents events,
      ∃ e, firstStarted r.executionArn events = some e ∧
        e.executionArn = r.executionArn ∧ e.eventType = "ExecutionStarted" ∧
        r.startTime = some (e.timestamp.fdiv 1000) := by
  obtain ⟨⟨hnodup, hcons⟩, _⟩ := correlate_invariants events
  constructor
  · exact countP_values_le_one _ X hnodup hcons
  · intro r hr
    have hlook := goLookup_correlate_of_mem hr
    have hst := goLookup_foldl_startTime events [] r.executionArn
    rw [hlook] at hst
    simp only [goLookup] at hst
    cases hfs : firstStarted r.executionArn events with
    | none => rw [hfs] at hst; simp at hst
    | some e =>
      rw [hfs] at hst
      simp at hst
      obtain ⟨harn, htype⟩ := firstStarted_spec hfs
      exact ⟨e, rfl, harn, htype, hst⟩

/-- C10 witness: on a concrete start/success pair the bound and the
start-time characterization hold for the produced record. -/
theorem c10_express_one_record_first_start_witness :
    ((correlateEvents
        [⟨"ExecutionStarted", "X", 1000, ""⟩, ⟨"ExecutionSucceeded", "X", 5000, ""⟩]).countP
      fun r => decide (r.executionArn = "X")) ≤ 1 ∧
    (∃ e, firstStarted "X"
        [⟨"ExecutionStarted", "X", 1000, ""⟩, ⟨"ExecutionSucceeded", "X", 5000, ""⟩] = some e ∧
      e.executionArn = "X" ∧ e.eventType = "ExecutionStarted" ∧
      ({ executionArn := "X", status := "Succeeded", startTime := some 1,
         endTime := some 5, duration := some 4 } : Execution).startTime =
        some (e.timestamp.fdiv 1000)) := by
  have h := c10_express_one_record_first_start
    [⟨"ExecutionStarted", "X", 1000, ""⟩, ⟨"ExecutionSucceeded", "X", 5000, ""⟩] "X"
  refine ⟨h.1, ?_⟩
  have hr : (⟨"X", "Succeeded", some 1, some 5, some 4⟩ : Execution) ∈
      correlateEvents
        [⟨"ExecutionStarted", "X", 1000, ""⟩, ⟨"ExecutionSucceeded", "X", 5000, ""⟩] := by
    decide
  have h2 := h.2 _ hr
  exact h2

/-- C1 counterexample: after a record for ARN `"X"` is closed by a
success event, a further `"ExecutionFailed"` event does not leave the
record unchanged — it overwrites status, end time, and duration. -/
theorem c1_counterexample :
    correlateEvents
        [⟨"ExecutionStarted", "X", 1000, ""⟩, ⟨"ExecutionSucceeded", "X", 5000, ""⟩] =
      [{ executionArn := "X", status := "Succeeded", startTime := some 1,
         endTime := some 5, duration := some 4 }] ∧
    correlateEvents
        [⟨"ExecutionStarted", "X", 1000, ""⟩, ⟨"ExecutionSucceeded", "X", 5000, ""⟩,
         ⟨"ExecutionFailed", "X", 9000, ""⟩] =
      [{ executionArn := "X", status := "Failed", startTime := some 1,
         endTime := some 9, duration := some 8 }] := by
  decide

/-- C1 (amended): lifecycle events for an ARN with no (prior) start
event produce no record, and a repeated `"ExecutionStarted"` for an
existing record is ignored; but a later non-start lifecycle event for an
ARN already in the map — closed or not — overwrites that record's
status, end time, and duration (recomputed from the unchanged start). -/
theorem c1_express_drop_and_overwrite :
    (∀ (events : List LogEvent) (X : String),
        firstStarted X events = none →
        ∀ r ∈ correlateEvents events, r.executionArn ≠ X) ∧
    (∀ (m : List (String × Execution)) (ev : LogEvent) (ex : Execution),
        goLookup m ev.executionArn = some ex →
        ev.eventType = "ExecutionStarted" →
        stepExpressEvent m ev = m) ∧
    (∀ (m : List (String × Execution)) (ev : LogEvent) (ex : Execution),
        goLookup m ev.executionArn = some ex →
        goHasPrefix "Execution" ev.eventType = true →
        ev.eventType ≠ "ExecutionStarted" →
        goLookup (stepExpressEvent m ev) ev.executionArn =
          some { ex with
                 status := goReplaceOnce ev.eventType "Execution"
                 endTime := some (ev.timestamp.fdiv 1000)
                 duration := some (ev.timestamp.fdiv 1000 - parseRFC3339 ex.startTime) }) := by
  refine ⟨?_, ?_, ?_⟩
  · intro events X hfs r hr hrX
    have hlook := goLookup_correlate_of_mem hr
    have hst := goLookup_foldl_startTime events [] r.executionArn
    rw [hlook, hrX, hfs] at hst
    simp only [goLookup, Option.map_none] at hst
    cases hst
  · intro m ev ex hl ht
    have hg : ¬(goHasPrefix "Execution" ev.eventType = true ∧ ev.eventType ≠ "ExecutionStarted") := by
      intro hc
      exact hc.2 ht
    simp only [stepExpressEvent, hl, if_neg hg]
  · intro m ev ex hl hpre hne
    have hg : goHasPrefix "Execution" ev.eventType = true ∧ ev.eventType ≠ "ExecutionStarted" :=
      ⟨hpre, hne⟩
    simp only [stepExpressEvent, hl, if_pos hg]
    exact goLookup_goUpdate_self _ hl

/-- C1 witness: a success event with no prior start yields no record for
that ARN; a duplicate start is a no-op on the map; a post-closure failed
event rewrites the closed record. -/
theorem c1_express_drop_and_overwrite_witness :
    (∀ r ∈ correlateEvents [⟨"ExecutionSucceeded", "X", 5000, ""⟩], r.executionArn ≠ "X") ∧
    stepExpressEvent
        [("X", { executionArn := "X", status := "RUNNING", startTime := some 1,
                 endTime := none, duration := none })]
        ⟨"ExecutionStarted", "X", 7000, ""⟩ =
      [("X", { executionArn := "X", status := "RUNNING", startTime := some 1,
               endTime := none, duration := none })] ∧
    goLookup
        (stepExpressEvent
          [("X", { executionArn := "X", status := "Succeeded", startTime := some 1,
                   endTime := some 5, duration := some 4 })]
          ⟨"ExecutionFailed", "X", 9000, ""⟩) "X" =
      some { executionArn := "X", status := "Failed", startTime := some 1,
             endTime := some 9, duration := some 8 } := by
  have h := c1_express_drop_and_overwrite
  refine ⟨h.1 [⟨"ExecutionSucceeded", "X", 5000, ""⟩] "X" (by decide), ?_, ?_⟩
  · exact h.2.1 _ ⟨"ExecutionStarted", "X", 7000, ""⟩
      { executionArn := "X", status := "RUNNING", startTime := some 1,
        endTime := none, duration := none } (by decide) rfl
  · have h3 := h.2.2
      [("X", { executionArn := "X", status := "Succeeded", startTime := some 1,
               endTime := some 5, duration := some 4 })]
      ⟨"ExecutionFailed", "X", 9000, ""⟩
      { executionArn := "X", status := "Succeeded", startTime := some 1,
        endTime := some 5, duration := some 4 }
      (by decide) (by decide) (by decide)
    rw [h3]
    decide

theorem getExecutions_eq (descs : List (Option DescribeResult)) :
    getExecutions descs = descs.filterMap fun od => od.map describeToExecution := by
  have aux : ∀ (l : List (Option DescribeResult)) (acc : List Execution),
      l.foldl
          (fun acc od =>
            match od with
            | none => acc
            | some d => acc ++ [describeToExecution d]) acc =
        acc ++ l.filterMap fun od => od.map describeToExecution := by
    intro l
    induction l with
    | nil => intro acc; simp
    | cons od rest ih =>
      intro acc
      cases od with
      | none => simp [ih]
      | some d => simp [ih]
  simpa [getExecutions] using aux descs []

theorem mem_getExecutions {descs : List (Option DescribeResult)} {r : Execution} :
    r ∈ getExecutions descs ↔ ∃ d, some d ∈ descs ∧ r = describeToExecution d := by
  rw [getExecutions_eq]
  constructor
  · intro h
    obtain ⟨od, hod, hmap⟩ := List.mem_filterMap.mp h
    cases od with
    | none => cases hmap
    | some d =>
      refine ⟨d, hod, ?_⟩
      simp only [Option.map_some'] at hmap
      exact (Option.some.inj hmap).symm
  · rintro ⟨d, hd, rfl⟩
    exact List.mem_filterMap.mpr ⟨some d, hd, rfl⟩

/-- C2 counterexample: for a start/success pair the produced status is
`"Succeeded"` (the `"Execution"` prefix stripped with its case kept),
not `"SUCCEEDED"`; and with start at 999 ms and success at 1000 ms the
stored duration is one full second (the RFC3339 round-trip truncates
milliseconds), not the 1 ms difference of the event timestamps. -/
theorem c2_counterexample :
    correlateEvents
        [⟨"ExecutionStarted", "X", 999, ""⟩, ⟨"ExecutionSucceeded", "X", 1000, ""⟩] =
      [⟨"X", "Succeeded", some 0, some 1, some 1⟩] ∧
    ("Succeeded" = "SUCCEEDED" → False) ∧
    ((1 : Int) * 1000 = 1000 - 999 → False) := by
  decide

/-- C2 (amended): a start event for ARN `X` followed by a success event
for `X` yields exactly one record for `X`, with status `"Succeeded"`,
end time the success event's time at RFC3339 second precision, and
duration the difference of the two event timestamps after truncation to
whole seconds. -/
theorem c2_express_start_then_success (X : String) (t1 t2 : Int) (s1 s2 : String) :
    correlateEvents
        [⟨"ExecutionStarted", X, t1, s1⟩, ⟨"ExecutionSucceeded", X, t2, s2⟩] =
      [⟨X, "Succeeded", some (t1.fdiv 1000), some (t2.fdiv 1000),
        some (t2.fdiv 1000 - t1.fdiv 1000)⟩] := by
  have hpre : goHasPrefix "Execution" "ExecutionSucceeded" = true := by decide
  have hne : ("ExecutionSucceeded" : String) ≠ "ExecutionStarted" := by decide
  have hrepl : goReplaceOnce "ExecutionSucceeded" "Execution" = "Succeeded" := by decide
  simp [correlateEvents, stepExpressEvent, goLookup, goUpdate, parseRFC3339,
    hpre, hne, hrepl]

/-- C4 counterexample: with a success event whose timestamp precedes the
start event's, the EXPRESS correlation produces a closed record with
`EndTime < StartTime` and a negative duration, so `EndTime ≥ StartTime`
does not hold for every input event order. -/
theorem c4_counterexample :
    correlateEvents
        [⟨"ExecutionStarted", "X", 10000, ""⟩, ⟨"ExecutionSucceeded", "X", 0, ""⟩] =
      [⟨"X", "Succeeded", some 10, some 0, some (-10)⟩] ∧
    ((0 : Int) ≥ 10 → False) := by
  decide

/-- C4 (amended): for every record produced by either fetcher, once the
end time is populated the stored duration equals end time minus start
time; but `EndTime ≥ StartTime` is not enforced by the code (see the
counterexample) — it holds only when the closing timestamp is not
earlier than the opening one. -/
theorem c4_duration_eq_end_sub_start :
    (∀ (events : List LogEvent), ∀ r ∈ correlateEvents events, ∀ ed, r.endTime = some ed →
        ∃ s, r.startTime = some s ∧ r.duration = some (ed - s) ∧ (s ≤ ed → ed ≥ s)) ∧
    (∀ (descs : List (Option DescribeResult)), ∀ r ∈ getExecutions descs,
        ∀ ed, r.endTime = some ed →
        ∃ s, r.startTime = some s ∧ r.duration = some (ed - s) ∧ (s ≤ ed → ed ≥ s)) := by
  constructor
  · intro events r hr ed hed
    obtain ⟨k, hk⟩ := mem_correlateEvents.mp hr
    obtain ⟨_, hclosed⟩ := correlate_invariants events
    obtain ⟨s, hs, hdur⟩ := hclosed (k, r) hk
    exact ⟨s, hs, hdur ed hed, fun h => h⟩
  · intro descs r hr ed hed
    obtain ⟨d, _, rfl⟩ := mem_getExecutions.mp hr
    cases hstop : d.stopDate with
    | none => simp [describeToExecution, hstop] at hed
    | some stop =>
      simp only [describeToExecution, hstop] at hed ⊢
      cases hed
      exact ⟨d.startDate, rfl, rfl, fun h => h⟩

/-- C4 witness: concrete closed records from both fetchers satisfy the
duration equation. -/
theorem c4_duration_eq_end_sub_start_witness :
    (∃ s, (⟨"X", "Succeeded", some 1, some 5, some 4⟩ : Execution).startTime = some s ∧
      (⟨"X", "Succeeded", some 1, some 5, some 4⟩ : Execution).duration = some (5 - s) ∧
      (s ≤ 5 → (5 : Int) ≥ s)) ∧
    (∃ s, (⟨"a", "SUCCEEDED", some 3, some 7, some 4⟩ : Execution).startTime = some s ∧
      (⟨"a", "SUCCEEDED", some 3, some 7, some 4⟩ : Execution).duration = some (7 - s) ∧
      (s ≤ 7 → (7 : Int) ≥ s)) := by
  have h := c4_duration_eq_end_sub_start
  constructor
  · exact h.1 [⟨"ExecutionStarted", "X", 1000, ""⟩, ⟨"ExecutionSucceeded", "X", 5000, ""⟩]
      ⟨"X", "Succeeded", some 1, some 5, some 4⟩ (by decide) 5 rfl
  · exact h.2 [some ⟨"a", "SUCCEEDED", 3, some 7⟩]
      ⟨"a", "SUCCEEDED", some 3, some 7, some 4⟩ (by decide) 7 rfl

/-- C6 counterexample: `getExecutions` copies the status verbatim and
subtracts timestamps without clamping, so a describe result with no
stop time and status `"SUCCEEDED"` yields a record that does not
reflect an in-progress execution, and a stop time earlier than the
start yields a negative duration. -/
theorem c6_counterexample :
    getExecutions [some ⟨"a", "SUCCEEDED", 10, none⟩, some ⟨"b", "FAILED", 10, some 0⟩] =
      [⟨"a", "SUCCEEDED", some 10, none, none⟩,
       ⟨"b", "FAILED", some 10, some 0, some (-10)⟩] ∧
    ("SUCCEEDED" = "RUNNING" → False) ∧
    ((-10 : Int) ≥ 0 → False) := by
  decide

/-- C6 (amended): every described STANDARD execution appears in the
output; with a stop time the record's end time is that stop time and
the duration is stop minus start (non-negative whenever stop ≥ start,
which the code does not enforce); without one the end time is empty and
the duration is the `"N/A"` marker; the status is always the describe
result's status verbatim (in particular it is not forced to an
in-progress value when no stop time exists). -/
theorem c6_standard_execution_fields (descs : List (Option DescribeResult))
    (d : DescribeResult) (hd : some d ∈ descs) :
    describeToExecution d ∈ getExecutions descs ∧
    (describeToExecution d).executionArn = d.executionArn ∧
    (describeToExecution d).status = d.status ∧
    (describeToExecution d).startTime = some d.startDate ∧
    (∀ stop, d.stopDate = some stop →
      (describeToExecution d).endTime = some stop ∧
      (describeToExecution d).duration = some (stop - d.startDate) ∧
      (d.startDate ≤ stop → ∃ dur, (describeToExecution d).duration = some dur ∧ 0 ≤ dur)) ∧
    (d.stopDate = none →
      (describeToExecution d).endTime = none ∧
      (describeToExecution d).duration = none) := by
  refine ⟨mem_getExecutions.mpr ⟨d, hd, rfl⟩, ?_, ?_, ?_, ?_, ?_⟩
  · cases hstop : d.stopDate <;> simp [describeToExecution, hstop]
  · cases hstop : d.stopDate <;> simp [describeToExecution, hstop]
  · cases hstop : d.stopDate <;> simp [describeToExecution, hstop]
  · intro stop hstop
    refine ⟨by simp [describeToExecution, hstop], by simp [describeToExecution, hstop], ?_⟩
    intro hle
    exact ⟨stop - d.startDate, by simp [describeToExecution, hstop], by omega⟩
  · intro hstop
    exact ⟨by simp [describeToExecution, hstop], by simp [describeToExecution, hstop]⟩

/-- C6 witness: a describe result with a stop time and one without,
evaluated concretely. -/
theorem c6_standard_execution_fields_witness :
    describeToExecution ⟨"a", "SUCCEEDED", 3, some 7⟩ ∈
      getExecutions [some ⟨"a", "SUCCEEDED", 3, some 7⟩] ∧
    (describeToExecution ⟨"a", "SUCCEEDED", 3, some 7⟩).endTime = some 7 ∧
    (describeToExecution ⟨"a", "SUCCEEDED", 3, some 7⟩).duration = some (7 - 3) ∧
    (describeToExecution ⟨"b", "RUNNING", 3, none⟩).endTime = none ∧
    (describeToExecution ⟨"b", "RUNNING", 3, none⟩).duration = none := by
  have h1 := c6_standard_execution_fields [some ⟨"a", "SUCCEEDED", 3, some 7⟩]
    ⟨"a", "SUCCEEDED", 3, some 7⟩ (by decide)
  have h2 := c6_standard_execution_fields [some ⟨"b", "RUNNING", 3, none⟩]
    ⟨"b", "RUNNING", 3, none⟩ (by decide)
  have hs := h1.2.2.2.2.1 7 rfl
  have hn := h2.2.2.2.2.2 rfl
  exact ⟨h1.1, hs.1, hs.2.1, hn.1, hn.2⟩

/-- C8: for a state machine whose logging configuration is absent, has
no destination, or names no log-group ARN, the EXPRESS fetch returns an
error, and the caller substitutes exactly one sentinel record with ARN
`"N/A"` and the unsupported-status message instead of failing the
run. -/
theorem c8_express_sentinel (cfg : Option LoggingConfiguration)
    (q : Except String (List (Option LogEvent)))
    (h : cfg = none ∨
      (∃ c, cfg = some c ∧ c.destinations = []) ∨
      (∃ c d rest g, cfg = some c ∧ c.destinations = d :: rest ∧
        d.cloudWatchLogsLogGroup = some g ∧ g.logGroupArn = none)) :
    (∃ msg, getExpressExecutions cfg q = .fetchError msg) ∧
    expressExecutionsOrSentinel cfg q = some [notSupportedSentinel] := by
  rcases h with rfl | ⟨c, rfl, hdest⟩ | ⟨c, d, rest, g, rfl, hdest, hgrp, harn⟩
  · exact ⟨⟨"logging not enabled", rfl⟩, rfl⟩
  · constructor
    · exact ⟨"logging not enabled", by simp [getExpressExecutions, hdest]⟩
    · simp [expressExecutionsOrSentinel, getExpressExecutions, hdest]
  · constructor
    · exact ⟨"no CloudWatch Log Group configured",
        by simp [getExpressExecutions, hdest, hgrp, harn]⟩
    · simp [expressExecutionsOrSentinel, getExpressExecutions, hdest, hgrp, harn]

/-- C8 witness: a nil logging configuration produces the single sentinel
record. -/
theorem c8_express_sentinel_witness :
    (∃ msg, getExpressExecutions none (.ok []) = .fetchError msg) ∧
    expressExecutionsOrSentinel none (.ok []) = some [notSupportedSentinel] :=
  c8_express_sentinel none (.ok []) (Or.inl rfl)

theorem processExecutions_eq (sm : StateMachine) :
    processExecutions sm =
      (sm.executions,
        (sm.executions.filter fun e => decide (e.executionArn ≠ "N/A")).map
          fun e => (executionFileName sm.name e.executionArn, e)) := by
  have aux : ∀ (l : List Execution) (acc : List Execution × List (String × Execution)),
      l.foldl
          (fun acc e =>
            let table := acc.1 ++ [e]
            if e.executionArn ≠ "N/A" then
              (table, acc.2 ++ [(executionFileName sm.name e.executionArn, e)])
            else (table, acc.2)) acc =
        (acc.1 ++ l,
          acc.2 ++ (l.filter fun e => decide (e.executionArn ≠ "N/A")).map
            fun e => (executionFileName sm.name e.executionArn, e)) := by
    intro l
    induction l with
    | nil => intro acc; simp
    | cons e rest ih =>
      intro acc
      rw [List.foldl_cons, ih]
      by_cases he : e.executionArn = "N/A"
      · simp [he]
      · simp [he]
  simpa [processExecutions] using aux sm.executions ([], [])

/-- C9: `processExecutions` appends every execution to the console
table, and writes a file for an execution exactly when its ARN is not
the sentinel `"N/A"`; the written content is the execution record
itself. -/
theorem c9_execution_persisted_iff (sm : StateMachine) (e : Execution)
    (he : e ∈ sm.executions) :
    e ∈ (processExecutions sm).1 ∧
    ((∃ fn, (fn, e) ∈ (processExecutions sm).2) ↔ e.executionArn ≠ "N/A") ∧
    (e.executionArn ≠ "N/A" →
      (executionFileName sm.name e.executionArn, e) ∈ (processExecutions sm).2) := by
  rw [processExecutions_eq]
  refine ⟨by simpa using he, ?_, ?_⟩
  · constructor
    · rintro ⟨fn, hfn⟩
      simp only [List.mem_map] at hfn
      obtain ⟨x, hx, hxe⟩ := hfn
      have hxe2 : x = e := congrArg Prod.snd hxe
      subst hxe2
      have hpred := List.of_mem_filter hx
      simpa using hpred
    · intro hne
      exact ⟨executionFileName sm.name e.executionArn,
        List.mem_map.mpr ⟨e, List.mem_filter.mpr ⟨he, by simpa using hne⟩, rfl⟩⟩
  · intro hne
    exact List.mem_map.mpr ⟨e, List.mem_filter.mpr ⟨he, by simpa using hne⟩, rfl⟩

/-- C9 witness: on a machine with one sentinel and one real execution,
the sentinel reaches the table but no file, and the real execution's
file is written. -/
theorem c9_execution_persisted_iff_witness :
    (⟨"N/A", "ns", none, none, none⟩ : Execution) ∈
      (processExecutions
        ⟨"sm", "a", "r", none, [], [⟨"N/A", "ns", none, none, none⟩,
          ⟨"arn:x", "S", some 0, some 1, some 1⟩], "d", "EXPRESS"⟩).1 ∧
    (¬∃ fn, (fn, (⟨"N/A", "ns", none, none, none⟩ : Execution)) ∈
      (processExecutions
        ⟨"sm", "a", "r", none, [], [⟨"N/A", "ns", none, none, none⟩,
          ⟨"arn:x", "S", some 0, some 1, some 1⟩], "d", "EXPRESS"⟩).2) ∧
    (executionFileName "sm" "arn:x", (⟨"arn:x", "S", some 0, some 1, some 1⟩ : Execution)) ∈
      (processExecutions
        ⟨"sm", "a", "r", none, [], [⟨"N/A", "ns", none, none, none⟩,
          ⟨"arn:x", "S", some 0, some 1, some 1⟩], "d", "EXPRESS"⟩).2 := by
  have hs := c9_execution_persisted_iff
    ⟨"sm", "a", "r", none, [], [⟨"N/A", "ns", none, none, none⟩,
      ⟨"arn:x", "S", some 0, some 1, some 1⟩], "d", "EXPRESS"⟩
    ⟨"N/A", "ns", none, none, none⟩ (List.mem_cons_self _ _)
  have hn := c9_execution_persisted_iff
    ⟨"sm", "a", "r", none, [], [⟨"N/A", "ns", none, none, none⟩,
      ⟨"arn:x", "S", some 0, some 1, some 1⟩], "d", "EXPRESS"⟩
    ⟨"arn:x", "S", some 0, some 1, some 1⟩
    (List.mem_cons_of_mem _ (List.mem_cons_self _ _))
  refine ⟨hs.1, fun hex => (hs.2.1.mp hex) rfl, hn.2.2 (by decide)⟩

/-- C5: `sanitizeFileName` is idempotent, and its output contains none
of the nine path-unsafe characters it replaces. -/
theorem c5_sanitize_idempotent_clean (s : String) :
    sanitizeFileName (sanitizeFileName s) = sanitizeFileName s ∧
    ∀ c ∈ (sanitizeFileName s).data, c ∉ invalidChars := by
  constructor
  · rw [sanitizeFileName_eq s, sanitizeFileName_eq (String.mk (s.data.map cleanChar))]
    refine congrArg String.mk ?_
    show (s.data.map cleanChar).map cleanChar = s.data.map cleanChar
    rw [List.map_map]
    apply List.map_congr_left
    intro x _
    exact cleanChar_cleanChar x
  · intro c hc
    rw [sanitizeFileName_data] at hc
    obtain ⟨x, _, rfl⟩ := List.mem_map.mp hc
    exact cleanChar_not_invalid x

/-- C5 witness: a concrete string with a colon and a slash sanitizes to
underscores, idempotently, and the result is free of invalid
characters. -/
theorem c5_sanitize_idempotent_clean_witness :
    sanitizeFileName (sanitizeFileName "a:b/c") = sanitizeFileName "a:b/c" ∧
    '_' ∈ (sanitizeFileName "a:b/c").data ∧ '_' ∉ invalidChars := by
  have h := c5_sanitize_idempotent_clean "a:b/c"
  have hmem : '_' ∈ (sanitizeFileName "a:b/c").data := by decide
  exact ⟨h.1, hmem, h.2 '_' hmem⟩

/-! ## Lemmas: Go map construction and JSON decoding -/

theorem goMapInsert_of_not_mem {α : Type} {m : List (String × α)} {k : String} (v : α)
    (h : k ∉ m.map Prod.fst) : goMapInsert m k v = m ++ [(k, v)] := by
  have hl : goLookup m k = none := (goLookup_eq_none_iff m k).mpr h
  simp [goMapInsert, hl]

theorem goMapOfList_foldl {α : Type} :
    ∀ (l acc : List (String × α)),
      distinctKeys l = true →
      (∀ x ∈ l.map Prod.fst, x ∉ acc.map Prod.fst) →
      l.foldl (fun m p => goMapInsert m p.1 p.2) acc = acc ++ l := by
  intro l
  induction l with
  | nil => intro acc _ _; simp
  | cons p rest ih =>
    intro acc hd hdisj
    obtain ⟨k, v⟩ := p
    simp only [distinctKeys, Bool.and_eq_true, Bool.not_eq_true'] at hd
    have hk : k ∉ acc.map Prod.fst := hdisj k (by simp)
    simp only [List.foldl_cons]
    rw [goMapInsert_of_not_mem v hk]
    rw [ih (acc ++ [(k, v)]) hd.2 ?_]
    · simp
    · intro x hx
      simp only [List.map_append, List.map_cons, List.map_nil, List.mem_append,
        List.mem_singleton, not_or]
      refine ⟨hdisj x (by simp [hx]), ?_⟩
      obtain ⟨q, hq, hqx⟩ := List.mem_map.mp hx
      intro hxk
      have := List.any_eq_false.mp hd.1 q hq
      simp only [decide_eq_true_eq] at this
      exact this (by rw [hqx]; exact hxk)

theorem goMapOfList_eq_self {α : Type} (l : List (String × α))
    (h : distinctKeys l = true) : goMapOfList l = l := by
  have haux := goMapOfList_foldl l [] h (by simp)
  simpa [goMapOfList] using haux

mutual
theorem goVal_eq_self : ∀ (v : Json), deepNodup v = true → goVal v = v
  | .null, _ => rfl
  | .bool _, _ => rfl
  | .num _, _ => rfl
  | .str _, _ => rfl
  | .arr xs, h => by
    have hx : deepNodupList xs = true := by simpa [deepNodup] using h
    simp only [goVal]
    rw [goValList_eq_self xs hx]
  | .obj ms, h => by
    have h2 : distinctKeys ms = true ∧ deepNodupMembers ms = true := by
      simpa [deepNodup, Bool.and_eq_true] using h
    simp only [goVal]
    rw [goValMembers_eq_self ms h2.2, goMapOfList_eq_self ms h2.1]

theorem goValList_eq_self : ∀ (xs : List Json), deepNodupList xs = true → goValList xs = xs
  | [], _ => rfl
  | x :: xs, h => by
    have h2 : deepNodup x = true ∧ deepNodupList xs = true := by
      simpa [deepNodupList, Bool.and_eq_true] using h
    simp only [goValList]
    rw [goVal_eq_self x h2.1, goValList_eq_self xs h2.2]

theorem goValMembers_eq_self :
    ∀ (ms : List (String × Json)), deepNodupMembers ms = true → goValMembers ms = ms
  | [], _ => rfl
  | (k, v) :: ms, h => by
    have h2 : deepNodup v = true ∧ deepNodupMembers ms = true := by
      simpa [deepNodupMembers, Bool.and_eq_true] using h
    simp only [goValMembers]
    rw [goVal_eq_self v h2.1, goValMembers_eq_self ms h2.2]
end

theorem decodeStatesInto_ok :
    ∀ (entries : List (String × Json)) (acc : List (String × List (String × Json))),
      (∀ p ∈ entries, ∃ ms, p.2 = Json.obj ms ∧ decodeStateObj p.2 = Except.ok ms) →
      (acc.map Prod.fst ++ entries.map Prod.fst).Nodup →
      ∃ rm, decodeStatesInto acc entries = .ok (acc ++ rm) ∧
        rm.map (fun q => (q.1, Json.obj q.2)) = entries := by
  intro entries
  induction entries with
  | nil =>
    intro acc _ _
    exact ⟨[], by simp [decodeStatesInto], rfl⟩
  | cons p rest ih =>
    intro acc hvals hnodup
    obtain ⟨k, v⟩ := p
    obtain ⟨ms, hobj, hdec⟩ := hvals (k, v) (List.mem_cons_self _ _)
    have hk : k ∉ acc.map Prod.fst := by
      have hdisj := (List.nodup_append.mp hnodup).2.2
      intro hmem
      exact hdisj hmem (by simp)
    have hnodup' : ((acc ++ [(k, ms)]).map Prod.fst ++ rest.map Prod.fst).Nodup := by
      simp only [List.map_append, List.map_cons, List.map_nil, List.append_assoc,
        List.singleton_append]
      simpa using hnodup
    obtain ⟨rm', hrm', hmap'⟩ := ih (acc ++ [(k, ms)])
      (fun q hq => hvals q (List.mem_cons_of_mem _ hq)) hnodup'
    refine ⟨(k, ms) :: rm', ?_, ?_⟩
    · simp only [decodeStatesInto, hdec]
      rw [goMapInsert_of_not_mem ms hk, hrm']
      simp
    · simp only [List.map_cons, hmap', ← hobj]

theorem decodeStatesField_no_match :
    ∀ (members : List (String × Json)) (m : List (String × List (String × Json))),
      members.filter (fun p => matchesStatesField p.1) = [] →
      decodeStatesField m members = .ok m := by
  intro members
  induction members with
  | nil => intro m _; rfl
  | cons p rest ih =>
    intro m hf
    obtain ⟨k, v⟩ := p
    by_cases hm : matchesStatesField k
    · rw [List.filter_cons_of_pos (by simpa using hm)] at hf
      cases hf
    · rw [List.filter_cons_of_neg (by simpa using hm)] at hf
      simp only [decodeStatesField, hm, if_false]
      exact ih m hf

theorem decodeStatesField_single :
    ∀ (members : List (String × Json)) (m : List (String × List (String × Json)))
      (k0 : String) (v0 : Json),
      members.filter (fun p => matchesStatesField p.1) = [(k0, v0)] →
      decodeStatesField m members = decodeStatesValue m v0 := by
  intro members
  induction members with
  | nil => intro m k0 v0 hf; cases hf
  | cons p rest ih =>
    intro m k0 v0 hf
    obtain ⟨k, v⟩ := p
    by_cases hm : matchesStatesField k
    · rw [List.filter_cons_of_pos (by simpa using hm)] at hf
      have hkv : (k, v) = (k0, v0) := List.head_eq_of_cons_eq hf
      have hrest : rest.filter (fun p => matchesStatesField p.1) = [] :=
        List.tail_eq_of_cons_eq hf
      cases hkv
      simp only [decodeStatesField, hm, if_true]
      cases hdv : decodeStatesValue m v0 with
      | error e => rfl
      | ok m' => exact decodeStatesField_no_match rest m' hrest
    · rw [List.filter_cons_of_neg (by simpa using hm)] at hf
      simp only [decodeStatesField, hm, if_false]
      exact ih m k0 v0 hf

/-- C3: for a well-formed definition whose top level is a JSON object
with a single `States` member that is an object with distinct keys, each
key mapping to a duplicate-free JSON object, `parseDefinition` returns
exactly one `State` per key, the produced names are exactly the state
keys, and each state's `rawDefinition` is the corresponding input
object. -/
theorem c3_parse_states (members : List (String × Json)) (sk : String)
    (entries : List (String × Json))
    (hfilter : members.filter (fun p => matchesStatesField p.1) = [(sk, Json.obj entries)])
    (hkeys : (entries.map Prod.fst).Nodup)
    (hvals : ∀ p ∈ entries, ∃ ms, p.2 = Json.obj ms ∧ deepNodup p.2 = true) :
    ∃ states, parseDefinition (some (Json.obj members)) = .ok states ∧
      states.length = entries.length ∧
      states.map State.name = entries.map Prod.fst ∧
      ∀ p ∈ entries, ∃ st, st ∈ states ∧ st.name = p.1 ∧ Json.obj st.rawDefinition = p.2 := by
  have hvals' : ∀ p ∈ entries, ∃ ms, p.2 = Json.obj ms ∧ decodeStateObj p.2 = Except.ok ms := by
    intro p hp
    obtain ⟨ms, hobj, hdn⟩ := hvals p hp
    refine ⟨ms, hobj, ?_⟩
    rw [hobj] at hdn ⊢
    simp only [deepNodup, Bool.and_eq_true] at hdn
    simp only [decodeStateObj]
    rw [goValMembers_eq_self ms hdn.2, goMapOfList_eq_self ms hdn.1]
  obtain ⟨rm, hrm, hmap⟩ := decodeStatesInto_ok entries [] hvals' (by simpa using hkeys)
  simp only [List.nil_append] at hrm
  have hparse : parseDefinition (some (Json.obj members)) = .ok (rm.map mkState) := by
    simp only [parseDefinition, decodeASLStates]
    rw [decodeStatesField_single members [] sk (Json.obj entries) hfilter]
    simp only [decodeStatesValue]
    rw [hrm]
  refine ⟨rm.map mkState, hparse, ?_, ?_, ?_⟩
  · rw [List.length_map, ← hmap, List.length_map]
  · rw [List.map_map, ← hmap, List.map_map]
    apply List.map_congr_left
    intro q _
    rfl
  · intro p hp
    rw [← hmap] at hp
    obtain ⟨q, hq, hqp⟩ := List.mem_map.mp hp
    refine ⟨mkState q, List.mem_map.mpr ⟨q, hq, rfl⟩, ?_, ?_⟩
    · rw [← hqp]; rfl
    · rw [← hqp]; rfl

/-- C3 witness: a two-member definition (a skipped `Comment` and a
one-state `States` object) parses to a single state named `"A"` whose
raw definition is the input object. -/
theorem c3_parse_states_witness :
    ∃ states, parseDefinition (some (Json.obj
        [("Comment", Json.str "c"),
         ("States", Json.obj
           [("A", Json.obj [("Type", Json.str "Pass"), ("End", Json.bool true)])])])) =
      .ok states ∧
      states.length =
        [("A", Json.obj [("Type", Json.str "Pass"), ("End", Json.bool true)])].length ∧
      states.map State.name =
        [("A", Json.obj [("Type", Json.str "Pass"), ("End", Json.bool true)])].map Prod.fst ∧
      ∀ p ∈ [("A", Json.obj [("Type", Json.str "Pass"), ("End", Json.bool true)])],
        ∃ st, st ∈ states ∧ st.name = p.1 ∧ Json.obj st.rawDefinition = p.2 := by
  apply c3_parse_states
    [("Comment", Json.str "c"),
     ("States", Json.obj [("A", Json.obj [("Type", Json.str "Pass"), ("End", Json.bool true)])])]
    "States"
    [("A", Json.obj [("Type", Json.str "Pass"), ("End", Json.bool true)])]
  · rfl
  · simp
  · intro p hp
    simp only [List.mem_singleton] at hp
    subst hp
    exact ⟨[("Type", Json.str "Pass"), ("End", Json.bool true)], rfl, rfl⟩

theorem decodeStateObj_error_iff (v : Json) :
    (∃ e, decodeStateObj v = .error e) ↔ stateValueOk v = false := by
  cases v <;> simp [decodeStateObj, stateValueOk]

theorem decodeStatesInto_error_iff :
    ∀ (ms : List (String × Json)) (m : List (String × List (String × Json))),
      (∃ e, decodeStatesInto m ms = .error e) ↔
        (ms.all fun p => stateValueOk p.2) = false := by
  intro ms
  induction ms with
  | nil => intro m; simp [decodeStatesInto]
  | cons p rest ih =>
    intro m
    obtain ⟨k, v⟩ := p
    cases hdec : decodeStateObj v with
    | error e =>
      have hv : stateValueOk v = false := (decodeStateObj_error_iff v).mp ⟨e, hdec⟩
      simp [decodeStatesInto, hdec, hv]
    | ok d =>
      have hv : stateValueOk v = true := by
        cases hsv : stateValueOk v with
        | true => rfl
        | false =>
          obtain ⟨e, he⟩ := (decodeStateObj_error_iff v).mpr hsv
          rw [he] at hdec
          cases hdec
      simp [decodeStatesInto, hdec, hv, ih]

theorem decodeStatesValue_error_iff (m : List (String × List (String × Json))) (v : Json) :
    (∃ e, decodeStatesValue m v = .error e) ↔ statesValueOk v = false := by
  cases v with
  | null => simp [decodeStatesValue, statesValueOk]
  | bool b => simp [decodeStatesValue, statesValueOk]
  | num n => simp [decodeStatesValue, statesValueOk]
  | str s => simp [decodeStatesValue, statesValueOk]
  | arr xs => simp [decodeStatesValue, statesValueOk]
  | obj ms => simpa [decodeStatesValue, statesValueOk] using decodeStatesInto_error_iff ms m

theorem decodeStatesField_error_iff :
    ∀ (members : List (String × Json)) (m : List (String × List (String × Json))),
      (∃ e, decodeStatesField m members = .error e) ↔
        (members.all fun p => !matchesStatesField p.1 || statesValueOk p.2) = false := by
  intro members
  induction members with
  | nil => intro m; simp [decodeStatesField]
  | cons p rest ih =>
    intro m
    obtain ⟨k, v⟩ := p
    by_cases hm : matchesStatesField k = true
    · cases hdv : decodeStatesValue m v with
      | error e =>
        have hv : statesValueOk v = false := (decodeStatesValue_error_iff m v).mp ⟨e, hdv⟩
        simp [decodeStatesField, hm, hdv, hv]
      | ok m' =>
        have hv : statesValueOk v = true := by
          cases hsv : statesValueOk v with
          | true => rfl
          | false =>
            obtain ⟨e, he⟩ := (decodeStatesValue_error_iff m v).mpr hsv
            rw [he] at hdv
            cases hdv
        simp [decodeStatesField, hm, hdv, hv, ih]
    · have hm' : matchesStatesField k = false := by simpa using hm
      simp [decodeStatesField, hm', ih]

/-- C7 counterexample: a well-formed outer JSON document whose `States`
value is a number still makes `parseDefinition` fail — the error is not
restricted to malformed outer JSON. -/
theorem c7_counterexample :
    parseDefinition (some (Json.obj [("States", Json.num 5)])) =
      .error .typeMismatch ∧
    some (Json.obj [("States", Json.num 5)]) ≠ (none : Option Json) := by
  exact ⟨rfl, by simp⟩

/-- C7 (amended): `parseDefinition` fails on malformed outer JSON, and
on well-formed JSON exactly when a value does not fit the target struct
(the whole document, a `States` value, or one state's value is neither
an object nor null); the per-field extraction of `Type`, `Next`, `End`
and `Parameters` never errors — a missing key or a wrongly-typed value
yields the field's zero value. -/
theorem c7_parse_error_iff :
    (parseDefinition none = .error .malformedJSON) ∧
    (∀ input : Option Json,
      (∃ e, parseDefinition input = .error e) ↔ definitionWellShaped input = false) ∧
    (∀ (name : String) (rawDef : List (String × Json)),
      (goLookup rawDef "Type" = none → (mkState (name, rawDef)).type = "") ∧
      (∀ v, goLookup rawDef "Type" = some v → (∀ s, v ≠ Json.str s) →
        (mkState (name, rawDef)).type = "") ∧
      (goLookup rawDef "Next" = none → (mkState (name, rawDef)).next = "") ∧
      (∀ v, goLookup rawDef "Next" = some v → (∀ s, v ≠ Json.str s) →
        (mkState (name, rawDef)).next = "") ∧
      (goLookup rawDef "End" = none → (mkState (name, rawDef)).«end» = false) ∧
      (∀ v, goLookup rawDef "End" = some v → (∀ b, v ≠ Json.bool b) →
        (mkState (name, rawDef)).«end» = false) ∧
      (goLookup rawDef "Parameters" = none → (mkState (name, rawDef)).parameters = []) ∧
      (∀ v, goLookup rawDef "Parameters" = some v → (∀ ms, v ≠ Json.obj ms) →
        (mkState (name, rawDef)).parameters = [])) := by
  refine ⟨rfl, ?_, ?_⟩
  · intro input
    cases input with
    | none =>
      refine ⟨fun _ => rfl, fun _ => ⟨.malformedJSON, rfl⟩⟩
    | some j =>
      cases j with
      | null => simp [parseDefinition, decodeASLStates, definitionWellShaped]
      | bool b => simp [parseDefinition, decodeASLStates, definitionWellShaped]
      | num n => simp [parseDefinition, decodeASLStates, definitionWellShaped]
      | str s => simp [parseDefinition, decodeASLStates, definitionWellShaped]
      | arr xs => simp [parseDefinition, decodeASLStates, definitionWellShaped]
      | obj members =>
        have hiff := decodeStatesField_error_iff members []
        constructor
        · rintro ⟨e, he⟩
          simp only [parseDefinition, decodeASLStates] at he
          cases hdf : decodeStatesField [] members with
          | error e' =>
            have hall := hiff.mp ⟨e', hdf⟩
            simpa [definitionWellShaped] using hall
          | ok sm => rw [hdf] at he; cases he
        · intro hws
          simp only [definitionWellShaped] at hws
          obtain ⟨e, he⟩ := hiff.mpr hws
          exact ⟨e, by simp [parseDefinition, decodeASLStates, he]⟩
  · intro name rawDef
    refine ⟨?_, ?_, ?_, ?_, ?_, ?_, ?_, ?_⟩
    · intro h; simp [mkState, h]
    · intro v h hne
      simp only [mkState, h]
      cases v with
      | str s => exact absurd rfl (hne s)
      | null => rfl
      | bool b => rfl
      | num n => rfl
      | arr xs => rfl
      | obj ms => rfl
    · intro h; simp [mkState, h]
    · intro v h hne
      simp only [mkState, h]
      cases v with
      | str s => exact absurd rfl (hne s)
      | null => rfl
      | bool b => rfl
      | num n => rfl
      | arr xs => rfl
      | obj ms => rfl
    · intro h; simp [mkState, h]
    · intro v h hne
      simp only [mkState, h]
      cases v with
      | bool b => exact absurd rfl (hne b)
      | null => rfl
      | str s => rfl
      | num n => rfl
      | arr xs => rfl
      | obj ms => rfl
    · intro h; simp [mkState, h]
    · intro v h hne
      simp only [mkState, h]
      cases v with
      | obj ms => exact absurd rfl (hne ms)
      | null => rfl
      | str s => rfl
      | num n => rfl
      | arr xs => rfl
      | bool b => rfl

/-- C7 witness: a malformed document errors; an empty state object and
a wrongly-typed `Type` value both give zero-valued fields. -/
theorem c7_parse_error_iff_witness :
    (∃ e, parseDefinition (none : Option Json) = .error e) ∧
    (mkState ("s", [])).type = "" ∧
    (mkState ("s", [])).next = "" ∧
    (mkState ("s", [])).«end» = false ∧
    (mkState ("s", [])).parameters = [] ∧
    (mkState ("s", [("Type", Json.num 3)])).type = "" := by
  have h := c7_parse_error_iff
  refine ⟨(h.2.1 none).mpr rfl, ?_, ?_, ?_, ?_, ?_⟩
  · exact (h.2.2 "s" []).1 rfl
  · exact (h.2.2 "s" []).2.2.1 rfl
  · exact (h.2.2 "s" []).2.2.2.2.1 rfl
  · exact (h.2.2 "s" []).2.2.2.2.2.2.1 rfl
  · exact (h.2.2 "s" [("Type", Json.num 3)]).2.1 (Json.num 3) rfl (fun s hs => nomatch hs)

end StepFn
